import Mathlib

/-!
Verification of the segment-recurrent-memory wrapper
(`RMTEncoderForSequenceClassification` in `modeling_rmt.py`).

The shallow embedding below translates the wrapper's segmentation pipeline
(`pad_and_segment`, `pad_add_special_tokens`, the right-alignment
comprehension) and its forward loop (`__call__`) into executable Lean
definitions.  Token ids are `Nat`, token sequences are `List Nat`, and the
per-call loop over segment slots is an explicit fold over an instrumented
state.  Fallible source operations (`torch.chunk` with zero chunks,
`torch.stack` over a list containing `None`, the use of the undefined local
`out` when no slot was processed) are modelled with `Option` / an error flag.
-/

namespace RMT

/-- Configuration captured by `set_params` / `extract_special_tokens` /
`extend_word_embeddings`: the `rmt_config` entries used by the wrapper, the
three special token ids taken from the tokenizer, and the base model's
original vocabulary size (memory token ids are appended after it). -/
structure RMTConfig where
  inputSize : Nat
  numMemTokens : Nat
  maxNSegments : Nat
  bpttDepth : Int
  sumLoss : Bool
  padTokenId : Nat
  clsTokenId : Nat
  sepTokenId : Nat
  vocabSize : Nat
  deriving DecidableEq

/-- `self.segment_size = rmt_config['input_size'] - num_mem_tokens - 3`. -/
def RMTConfig.segmentSize (cfg : RMTConfig) : Nat :=
  cfg.inputSize - cfg.numMemTokens - 3

/-- `self.mem_token_ids = torch.arange(vocab_size, vocab_size + num_mem_tokens)`. -/
def RMTConfig.memTokenIds (cfg : RMTConfig) : List Nat :=
  (List.range cfg.numMemTokens).map (fun k => cfg.vocabSize + k)

/-- `self.memory_position = range(1, 1 + num_mem_tokens)`. -/
def RMTConfig.memoryPosition (cfg : RMTConfig) : List Nat :=
  (List.range cfg.numMemTokens).map (fun k => 1 + k)

/-- Ceiling division on naturals, `math.ceil(a / b)` for positive `b`. -/
def ceilDiv (a b : Nat) : Nat := (a + b - 1) / b

/-- `seq[(seq != pad) & (seq != cls) & (seq != sep)]`: drop every occurrence
of the three special token ids. -/
def stripSpecial (cfg : RMTConfig) (seq : List Nat) : List Nat :=
  seq.filter (fun t =>
    decide (¬(t = cfg.padTokenId ∨ t = cfg.clsTokenId ∨ t = cfg.sepTokenId)))

/-- `seq[:segment_size * max_n_segments]` applied after stripping. -/
def truncated (cfg : RMTConfig) (seq : List Nat) : List Nat :=
  (stripSpecial cfg seq).take (cfg.segmentSize * cfg.maxNSegments)

/-- `n_seg = math.ceil(len(seq) / segment_size)` for the stripped, truncated
sequence. -/
def nSeg (cfg : RMTConfig) (seq : List Nat) : Nat :=
  ceilDiv (truncated cfg seq).length cfg.segmentSize

/-- Fuel-driven splitting of a list into consecutive chunks of `c` elements
(the final chunk may be shorter).  The fuel only serves termination; with
`fuel ≥ l.length` and `c > 0` it never runs out. -/
def chunkByF {α : Type} (c : Nat) : Nat → List α → List (List α)
  | _, [] => []
  | 0, _ :: _ => []
  | fuel + 1, a :: l => ((a :: l).take c) :: chunkByF c fuel ((a :: l).drop c)

/-- Split `l` into consecutive chunks of `c` elements each (last one may be
shorter). -/
def chunkBy {α : Type} (c : Nat) (l : List α) : List (List α) :=
  chunkByF c l.length l

/-- `torch.chunk(seq, n_seg)`: PyTorch splits into chunks of size
`ceil(len / n_seg)` each (so it can return fewer than `n_seg` chunks in
general). -/
def chunksOf (cfg : RMTConfig) (seq : List Nat) : List (List Nat) :=
  chunkBy (ceilDiv (truncated cfg seq).length (nSeg cfg seq)) (truncated cfg seq)

/-- `pad_add_special_tokens(tensor, input_size)`:
`torch.cat([cls, mem_token_ids, sep, tensor, sep])`, then `F.pad(t, (0, pad_size))`
when `pad_size = input_size - len > 0`.  Note `F.pad` pads with the literal
value `0`, not with `pad_token_id`. -/
def padAddSpecialTokens (cfg : RMTConfig) (t : List Nat) : List Nat :=
  let tensor := cfg.clsTokenId :: (cfg.memTokenIds ++ cfg.sepTokenId :: (t ++ [cfg.sepTokenId]))
  let padSize : Int := (cfg.inputSize : Int) - (tensor.length : Int)
  if 0 < padSize then tensor ++ List.replicate padSize.toNat 0 else tensor

/-- One sequence's side of `pad_and_segment`: strip, truncate, chunk, wrap.
`torch.chunk(seq, 0)` raises `RuntimeError` (chunk count must be positive),
which happens exactly when the stripped, truncated sequence is empty; this is
the `none` case. -/
def segListOfSeq (cfg : RMTConfig) (seq : List Nat) : Option (List (List Nat)) :=
  if nSeg cfg seq = 0 then none
  else some ((chunksOf cfg seq).map (padAddSpecialTokens cfg))

/-- The per-sequence loop of `pad_and_segment` over the whole batch
(`segmented_batch` before the alignment comprehension); `none` if any
sequence raises. -/
def segAll (cfg : RMTConfig) : List (List Nat) → Option (List (List (List Nat)))
  | [] => some []
  | s :: rest =>
    match segListOfSeq cfg s, segAll cfg rest with
    | some a, some b => some (a :: b)
    | _, _ => none

/-- The double-reversal right-alignment comprehension
`[[s[::-1][i] if len(s) > i else None for s in segmented_batch]
  for i in range(max_n_segments)][::-1]`. -/
def rightAlign {α : Type} (m : Nat) (sb : List (List α)) : List (List (Option α)) :=
  ((List.range m).map (fun i => sb.map (fun s => s.reverse.get? i))).reverse

/-- Modelled from the spec: direct index arithmetic for right alignment —
iterate slots first to last; slot `i` is populated for a sequence `s` exactly
when `i ≥ m - s.length`, and then holds element `i - (m - s.length)` of `s`.
Stated for comparison with `rightAlign` (refinement claim C8). -/
def rightAlignDirect {α : Type} (m : Nat) (sb : List (List α)) : List (List (Option α)) :=
  (List.range m).map (fun i =>
    sb.map (fun s => if m - s.length ≤ i then s.get? (i - (m - s.length)) else none))

/-- `pad_and_segment(input_ids)`: per-sequence segmentation followed by the
right-alignment comprehension. -/
def padAndSegment (cfg : RMTConfig) (batch : List (List Nat)) :
    Option (List (List (Option (List Nat)))) :=
  match segAll cfg batch with
  | none => none
  | some sb => some (rightAlign cfg.maxNSegments sb)

/-- The segment (if any) of batch element `b` in slot `i` of a segmented
batch. -/
def slotAt (slots : List (List (Option (List Nat)))) (i b : Nat) :
    Option (List Nat) :=
  ((slots.get? i).bind (fun row => row.get? b)).bind id

/-- The non-absent segments of batch element `b`, taken in slot order from
first to last. -/
def nonAbsentSegs (slots : List (List (Option (List Nat)))) (b : Nat) :
    List (List Nat) :=
  (List.range slots.length).filterMap (fun i => slotAt slots i b)

/-- The content portion of an assembled segment: the tokens strictly between
the first occurrence of `sep` and the last occurrence of `sep`. -/
def contentPortion (sep : Nat) (seg : List Nat) : List Nat :=
  let rest := (seg.dropWhile (fun t => t != sep)).drop 1
  ((rest.reverse.dropWhile (fun t => t != sep)).drop 1).reverse

/-! ### The forward loop (`__call__`)

The base encoder is external: we abstract one call
`self.model.forward(inputs_embeds=…, attention_mask=…, token_type_ids=…,
labels=…, output_hidden_states=True)` as a function `enc` from the slot
index, the stacked segment token ids, the derived attention mask and
token-type ids, the active slice of the memory tensor and the active slice
of the labels, to an output carrying the new memory rows (the final hidden
states at `memory_position`) and the scalar loss.  A memory row (type `M`)
stands for one batch element's `(num_mem_tokens, hidden)` block; `detach`
shares the tensor's values, so it leaves row values unchanged and is recorded
in an event log instead. -/

/-- The slot-detach condition of `__call__`:
`(bptt_depth > -1) and (len(segmented) - seg_num > bptt_depth)`. -/
def detachCond (cfg : RMTConfig) (total i : Nat) : Prop :=
  (-1 : Int) < cfg.bpttDepth ∧ cfg.bpttDepth < (total : Int) - (i : Int)

instance (cfg : RMTConfig) (total i : Nat) : Decidable (detachCond cfg total i) :=
  inferInstanceAs (Decidable (_ ∧ _))

/-- `get_attention_mask`: ones, zeroed where the token equals `pad_token_id`. -/
def getAttentionMask (cfg : RMTConfig) (row : List Nat) : List Nat :=
  row.map (fun t => if t = cfg.padTokenId then 0 else 1)

/-- `get_token_type_ids`: all zeros. -/
def getTokenTypeIds (row : List Nat) : List Nat :=
  row.map (fun _ => 0)

/-- Result of one base-encoder forward call: the final-layer hidden states at
`memory_position` for each active batch element, and the task loss. -/
structure EncOut (M : Type) where
  newMems : List M
  loss : ℤ
  deriving DecidableEq

/-- The state threaded through the per-slot loop of `__call__`, instrumented:
`memory` is the per-batch-element memory tensor, `losses` the accumulated
`losses` list, `lastOut` the current value of the local `out`, and the rest
is an event log (`outs`: every encoder output in order; `detachedAt`: slots
at which `memory.detach()` ran; `invoked`: slots for which the base encoder
was called; `err`: a raised exception, after which nothing further runs). -/
structure FwdState (M : Type) where
  memory : List M
  losses : List ℤ
  lastOut : Option (EncOut M)
  outs : List (EncOut M)
  detachedAt : List Nat
  invoked : List Nat
  err : Bool
  deriving DecidableEq

/-- The fields of the returned `out` object that the wrapper touches:
`final` is the last processed segment's output, `loss` the (possibly
overwritten) `out['loss']`, and `lossSegs` the `loss_0, loss_1, …` fields in
order (`out['loss']` is a zero-dimensional tensor, so `l.mean()` is `l`
itself). -/
structure RMTOut (M : Type) where
  final : EncOut M
  loss : ℤ
  lossSegs : List ℤ
  deriving DecidableEq

/-- Boolean-mask selection `t[mask]` along the batch dimension. -/
def maskFilter {α : Type} (mask : List Bool) (l : List α) : List α :=
  ((mask.zip l).filter (fun p => p.1)).map (fun p => p.2)

/-- Boolean-mask assignment `t[mask] = new` along the batch dimension:
masked rows take successive rows of `new`, unmasked rows are unchanged. -/
def maskedAssign {α : Type} : List α → List Bool → List α → List α
  | [], _, _ => []
  | o :: os, [], _ => o :: os
  | o :: os, b :: bs, news =>
    if b then
      match news with
      | [] => o :: maskedAssign os bs []
      | n :: ns => n :: maskedAssign os bs ns
    else o :: maskedAssign os bs news

/-- `memory = self.set_memory(); memory = memory.repeat(batch, 1, 1)` plus
empty accumulators: the state at the top of `__call__`. -/
def initState {M : Type} (bsz : Nat) (initRow : M) : FwdState M :=
  { memory := List.replicate bsz initRow
    losses := []
    lastOut := none
    outs := []
    detachedAt := []
    invoked := []
    err := false }

/-- One iteration of `for seg_num, segment_input_ids in enumerate(segmented)`:
optional `memory.detach()` (values shared, event logged), the
`non_empty_mask` computation, the `continue` when the mask sums to zero, the
`torch.stack(segment_input_ids)` — which raises `TypeError` when the slot
still contains an absent (`None`) entry — and otherwise the encoder call and
the masked write-back of the new memory. -/
def fwdStep {M : Type} (cfg : RMTConfig)
    (enc : Nat → List (List Nat) → List (List Nat) → List (List Nat) → List M → List Int → EncOut M)
    (labels : List Int) (total : Nat) (st : FwdState M) (i : Nat)
    (slot : List (Option (List Nat))) : FwdState M :=
  if st.err then st
  else
    let st1 :=
      if detachCond cfg total i then
        { st with detachedAt := st.detachedAt ++ [i] }
      else st
    let mask := slot.map Option.isSome
    if mask.count true = 0 then st1
    else if mask.all (fun b => b) then
      let segs := slot.filterMap id
      let out := enc i segs (segs.map (getAttentionMask cfg)) (segs.map getTokenTypeIds)
        (maskFilter mask st1.memory) (maskFilter mask labels)
      { st1 with
          memory := maskedAssign st1.memory mask out.newMems
          losses := st1.losses ++ [out.loss]
          lastOut := some out
          outs := st1.outs ++ [out]
          invoked := st1.invoked ++ [i] }
    else { st1 with err := true }

/-- The whole `for seg_num, segment_input_ids in enumerate(segmented)` loop,
starting from slot index `i`. -/
def runSlots {M : Type} (cfg : RMTConfig)
    (enc : Nat → List (List Nat) → List (List Nat) → List (List Nat) → List M → List Int → EncOut M)
    (labels : List Int) (total : Nat) :
    FwdState M → Nat → List (List (Option (List Nat))) → FwdState M
  | st, _, [] => st
  | st, i, slot :: rest =>
    runSlots cfg enc labels total (fwdStep cfg enc labels total st i slot) (i + 1) rest

/-- The segment loop of one forward call, from the initial broadcast memory. -/
def forwardLoop {M : Type} (cfg : RMTConfig)
    (enc : Nat → List (List Nat) → List (List Nat) → List (List Nat) → List M → List Int → EncOut M)
    (labels : List Int) (bsz : Nat) (initRow : M)
    (slots : List (List (Option (List Nat)))) : FwdState M :=
  runSlots cfg enc labels slots.length (initState bsz initRow) 0 slots

/-- The epilogue of `__call__`: reading the local `out` raises `NameError`
when no slot was processed (and `torch.stack([])` raises under `sum_loss`);
otherwise `out['loss_i']` fields are attached and, if `sum_loss`,
`out['loss']` is replaced by the sum of the per-segment losses. -/
def finalize {M : Type} (cfg : RMTConfig) (st : FwdState M) : Option (RMTOut M) :=
  if st.err then none
  else
    match st.lastOut with
    | none => none
    | some o =>
      some { final := o
             loss := if cfg.sumLoss then st.losses.sum else o.loss
             lossSegs := st.losses }

/-- `__call__(input_ids, labels=…)` end to end: segmentation, the slot loop,
and the epilogue; `none` models an uncaught exception. -/
def rmtForward {M : Type} (cfg : RMTConfig)
    (enc : Nat → List (List Nat) → List (List Nat) → List (List Nat) → List M → List Int → EncOut M)
    (initRow : M) (labels : List Int) (batch : List (List Nat)) : Option (RMTOut M) :=
  match padAndSegment cfg batch with
  | none => none
  | some slots => finalize cfg (forwardLoop cfg enc labels batch.length initRow slots)

/-! ### Concrete instances used by witnesses and counterexamples -/

/-- `segment_size = 9 - 1 - 3 = 5`, three slots, BERT-like special tokens. -/
def cfg4 : RMTConfig :=
  { inputSize := 9, numMemTokens := 1, maxNSegments := 3, bpttDepth := -1,
    sumLoss := false, padTokenId := 0, clsTokenId := 101, sepTokenId := 102,
    vocabSize := 1000 }

/-- A tokenizer whose `pad_token_id` is not `0`, to separate `F.pad`'s fill
value from `pad_token_id`. -/
def cfgPad : RMTConfig :=
  { cfg4 with inputSize := 10, numMemTokens := 2, padTokenId := 99 }

/-- Sequence A of the concrete scenario: 12 content tokens. -/
def seqA : List Nat := [1, 2, 3, 4, 5, 6, 7, 8, 9, 10, 11, 12]

/-- Sequence B of the concrete scenario: 3 content tokens. -/
def seqB : List Nat := [1, 2, 3]

/-- A concrete base encoder over memory rows `M = Nat`: ignores its inputs
except the slot index, returns loss `i + 1` and increments each memory row. -/
def encEx : Nat → List (List Nat) → List (List Nat) → List (List Nat) → List Nat → List Int → EncOut Nat :=
  fun i _ _ _ mems _ => { newMems := mems.map (fun x => x + 1), loss := (i : ℤ) + 1 }

/-- The consecutive indices `i, i+1, …, i+n-1` (proof-friendly form of the
slot indices produced by `enumerate`). -/
def idxFrom : Nat → Nat → List Nat
  | _, 0 => []
  | i, n + 1 => i :: idxFrom (i + 1) n

/-- Bookkeeping invariant of the slot loop: the `losses` list collects
exactly the losses of the recorded encoder outputs, the local `out` is the
most recent output, and one slot index was recorded per encoder call. -/
def StateInv {M : Type} (st : FwdState M) : Prop :=
  st.losses = st.outs.map (fun o => o.loss) ∧
  st.lastOut = st.outs.getLast? ∧
  st.invoked.length = st.outs.length

end RMT

namespace RMT

/-- Shorthand for the abstracted base-encoder forward function (slot index,
stacked segments, attention mask, token-type ids, active memory slice,
active labels). -/
def Enc (M : Type) : Type :=
  Nat → List (List Nat) → List (List Nat) → List (List Nat) → List M → List Int → EncOut M

end RMT

/-! ## Helper lemmas: ceiling division and chunking -/

namespace RMT

theorem ceilDiv_le_iff {a b k : Nat} (hb : 0 < b) : ceilDiv a b ≤ k ↔ a ≤ k * b := by
  unfold ceilDiv
  rw [← Nat.lt_succ_iff, Nat.div_lt_iff_lt_mul hb, Nat.succ_mul]
  generalize k * b = t
  omega

theorem lt_ceilDiv_iff {a b k : Nat} (hb : 0 < b) : k < ceilDiv a b ↔ k * b < a := by
  constructor
  · intro h
    by_contra hc
    push_neg at hc
    exact Nat.lt_irrefl _ (Nat.lt_of_lt_of_le h ((ceilDiv_le_iff hb).mpr hc))
  · intro h
    by_contra hc
    push_neg at hc
    exact Nat.lt_irrefl _ (Nat.lt_of_lt_of_le h ((ceilDiv_le_iff hb).mp hc))

theorem ceilDiv_pos {a b : Nat} (ha : 0 < a) (hb : 0 < b) : 0 < ceilDiv a b :=
  (lt_ceilDiv_iff hb).mpr (by simpa using ha)

theorem ceilDiv_fix {L s : Nat} (hL : 0 < L) (hs : 0 < s) :
    ceilDiv L (ceilDiv L (ceilDiv L s)) = ceilDiv L s := by
  set n := ceilDiv L s with hn
  have hnpos : 0 < n := ceilDiv_pos hL hs
  set d := ceilDiv L n with hd
  have hdpos : 0 < d := ceilDiv_pos hL hnpos
  have h1 : L ≤ n * s := (ceilDiv_le_iff hs).mp le_rfl
  have h2 : (n - 1) * s < L := (lt_ceilDiv_iff hs).mp (by omega)
  have h3 : L ≤ d * n := (ceilDiv_le_iff hnpos).mp le_rfl
  have h4 : d ≤ s := (ceilDiv_le_iff hnpos).mpr (by rwa [Nat.mul_comm] at h1)
  apply Nat.le_antisymm
  · exact (ceilDiv_le_iff hdpos).mpr (by rwa [Nat.mul_comm] at h3)
  · have h5 : (n - 1) * d < L :=
      Nat.lt_of_le_of_lt (Nat.mul_le_mul_left _ h4) h2
    have h6 := (lt_ceilDiv_iff hdpos).mpr h5
    omega

theorem ceilDiv_sub_step {l c : Nat} (hc : 0 < c) (hl : 0 < l) :
    ceilDiv l c = ceilDiv (l - c) c + 1 := by
  unfold ceilDiv
  rcases Nat.le_total l c with h | h
  · have h1 : l - c = 0 := by omega
    have h2 : (0 + c - 1) / c = 0 := Nat.div_eq_of_lt (by omega)
    have h3 : (l + c - 1) / c = 1 :=
      Nat.div_eq_of_lt_le (by omega) (by omega)
    rw [h1, h2, h3]
  · have h1 : l + c - 1 = (l - c + c - 1) + c := by omega
    rw [h1, Nat.add_div_right _ hc]

theorem chunkByF_flatten {α : Type} {c fuel : Nat} {l : List α} (hc : 0 < c)
    (hf : l.length ≤ fuel) : (chunkByF c fuel l).flatten = l := by
  induction fuel generalizing l with
  | zero =>
    have h : l = [] := List.length_eq_zero.mp (Nat.le_zero.mp hf)
    subst h
    rfl
  | succ fuel ih =>
    cases l with
    | nil => rfl
    | cons a t =>
      have hdrop : ((a :: t).drop c).length ≤ fuel := by
        rw [List.length_drop]
        simp only [List.length_cons] at hf ⊢
        omega
      show ((a :: t).take c :: chunkByF c fuel ((a :: t).drop c)).flatten = a :: t
      rw [List.flatten_cons, ih hdrop, List.take_append_drop]

theorem chunkByF_length {α : Type} {c fuel : Nat} {l : List α} (hc : 0 < c)
    (hf : l.length ≤ fuel) : (chunkByF c fuel l).length = ceilDiv l.length c := by
  induction fuel generalizing l with
  | zero =>
    have h : l = [] := List.length_eq_zero.mp (Nat.le_zero.mp hf)
    subst h
    show 0 = ceilDiv 0 c
    unfold ceilDiv
    rw [Nat.div_eq_of_lt (by omega)]
  | succ fuel ih =>
    cases l with
    | nil =>
      show 0 = ceilDiv 0 c
      unfold ceilDiv
      rw [Nat.div_eq_of_lt (by omega)]
    | cons a t =>
      have hdrop : ((a :: t).drop c).length ≤ fuel := by
        rw [List.length_drop]
        simp only [List.length_cons] at hf ⊢
        omega
      show ((a :: t).take c :: chunkByF c fuel ((a :: t).drop c)).length = _
      rw [List.length_cons, ih hdrop, List.length_drop]
      exact (ceilDiv_sub_step hc (by simp)).symm

theorem chunkBy_flatten {α : Type} {c : Nat} {l : List α} (hc : 0 < c) :
    (chunkBy c l).flatten = l :=
  chunkByF_flatten hc le_rfl

theorem chunkBy_length {α : Type} {c : Nat} {l : List α} (hc : 0 < c) :
    (chunkBy c l).length = ceilDiv l.length c :=
  chunkByF_length hc le_rfl

theorem mem_of_mem_chunkBy {α : Type} {c : Nat} {l t : List α} {x : α}
    (hc : 0 < c) (ht : t ∈ chunkBy c l) (hx : x ∈ t) : x ∈ l := by
  have h := List.mem_flatten.mpr ⟨t, ht, hx⟩
  rwa [chunkBy_flatten hc] at h

end RMT

/-! ## Helper lemmas: segment assembly and content extraction -/

namespace RMT

theorem dropWhile_bne {sep : Nat} {a : List Nat} (h : sep ∉ a) (r : List Nat) :
    (a ++ sep :: r).dropWhile (fun t => t != sep) = sep :: r := by
  induction a with
  | nil => simp [List.dropWhile_cons]
  | cons x xs ih =>
    have hx : x ≠ sep := fun he => h (he ▸ List.mem_cons_self x xs)
    have hxs : sep ∉ xs := fun hm => h (List.mem_cons_of_mem _ hm)
    simpa [List.dropWhile_cons, bne_iff_ne, hx] using ih hxs

theorem padAddSpecialTokens_shape (cfg : RMTConfig) (t : List Nat) :
    ∃ k, padAddSpecialTokens cfg t =
      (cfg.clsTokenId :: cfg.memTokenIds) ++
        cfg.sepTokenId :: (t ++ cfg.sepTokenId :: List.replicate k 0) := by
  by_cases hp : (0 : Int) < (cfg.inputSize : Int) -
      ((cfg.clsTokenId :: (cfg.memTokenIds ++ cfg.sepTokenId :: (t ++ [cfg.sepTokenId]))).length : Int)
  · refine ⟨((cfg.inputSize : Int) -
      ((cfg.clsTokenId :: (cfg.memTokenIds ++ cfg.sepTokenId :: (t ++ [cfg.sepTokenId]))).length : Int)).toNat, ?_⟩
    simp only [padAddSpecialTokens]
    rw [if_pos hp]
    simp
  · refine ⟨0, ?_⟩
    simp only [padAddSpecialTokens]
    rw [if_neg hp]
    simp

theorem sep_not_mem_front {cfg : RMTConfig}
    (hcls : cfg.clsTokenId ≠ cfg.sepTokenId) (hsepv : cfg.sepTokenId < cfg.vocabSize) :
    cfg.sepTokenId ∉ (cfg.clsTokenId :: cfg.memTokenIds) := by
  intro hmem
  rcases List.mem_cons.mp hmem with h | h
  · exact hcls h.symm
  · rcases List.mem_map.mp h with ⟨j, _, hj⟩
    omega

theorem contentPortion_pad {cfg : RMTConfig} {t : List Nat}
    (hcls : cfg.clsTokenId ≠ cfg.sepTokenId)
    (hsepv : cfg.sepTokenId < cfg.vocabSize)
    (hsep0 : cfg.sepTokenId ≠ 0) :
    contentPortion cfg.sepTokenId (padAddSpecialTokens cfg t) = t := by
  obtain ⟨k, hk⟩ := padAddSpecialTokens_shape cfg t
  rw [hk]
  unfold contentPortion
  rw [dropWhile_bne (sep_not_mem_front hcls hsepv)]
  have hrev : (t ++ cfg.sepTokenId :: List.replicate k 0).reverse
      = (List.replicate k 0).reverse ++ cfg.sepTokenId :: t.reverse := by
    simp
  have hpn : cfg.sepTokenId ∉ (List.replicate k 0).reverse := by
    simp only [List.mem_reverse, List.mem_replicate]
    intro hc
    exact hsep0 hc.2
  simp only [List.drop_succ_cons, List.drop_zero, hrev]
  rw [dropWhile_bne hpn]
  simp

end RMT

/-! ## Helper lemmas: stripping, per-sequence segmentation, the batch loop -/

namespace RMT

theorem truncated_length (cfg : RMTConfig) (seq : List Nat) :
    (truncated cfg seq).length =
      min (cfg.segmentSize * cfg.maxNSegments) (stripSpecial cfg seq).length := by
  unfold truncated
  exact List.length_take _ _

theorem truncated_length_le (cfg : RMTConfig) (seq : List Nat) :
    (truncated cfg seq).length ≤ cfg.segmentSize * cfg.maxNSegments := by
  rw [truncated_length]
  exact Nat.min_le_left _ _

theorem truncated_length_pos {cfg : RMTConfig} {seq : List Nat}
    (hs : 0 < cfg.segmentSize) (hm : 0 < cfg.maxNSegments)
    (hne : stripSpecial cfg seq ≠ []) : 0 < (truncated cfg seq).length := by
  rw [truncated_length]
  have h1 : 0 < (stripSpecial cfg seq).length := List.length_pos.mpr hne
  have h2 : 0 < cfg.segmentSize * cfg.maxNSegments := Nat.mul_pos hs hm
  omega

theorem nSeg_pos {cfg : RMTConfig} {seq : List Nat}
    (hs : 0 < cfg.segmentSize) (hm : 0 < cfg.maxNSegments)
    (hne : stripSpecial cfg seq ≠ []) : 0 < nSeg cfg seq :=
  ceilDiv_pos (truncated_length_pos hs hm hne) hs

theorem nSeg_le_max {cfg : RMTConfig} (seq : List Nat) (hs : 0 < cfg.segmentSize) :
    nSeg cfg seq ≤ cfg.maxNSegments := by
  unfold nSeg
  rw [ceilDiv_le_iff hs]
  have := truncated_length_le cfg seq
  calc (truncated cfg seq).length ≤ cfg.segmentSize * cfg.maxNSegments := this
    _ = cfg.maxNSegments * cfg.segmentSize := Nat.mul_comm _ _

theorem chunksOf_length {cfg : RMTConfig} {seq : List Nat}
    (hs : 0 < cfg.segmentSize) (hlen : 0 < (truncated cfg seq).length) :
    (chunksOf cfg seq).length = nSeg cfg seq := by
  have hn : 0 < nSeg cfg seq := ceilDiv_pos hlen hs
  have hd : 0 < ceilDiv (truncated cfg seq).length (nSeg cfg seq) :=
    ceilDiv_pos hlen hn
  unfold chunksOf
  rw [chunkBy_length hd]
  exact ceilDiv_fix hlen hs

theorem chunksOf_flatten {cfg : RMTConfig} {seq : List Nat}
    (hs : 0 < cfg.segmentSize) (hlen : 0 < (truncated cfg seq).length) :
    (chunksOf cfg seq).flatten = truncated cfg seq := by
  have hn : 0 < nSeg cfg seq := ceilDiv_pos hlen hs
  exact chunkBy_flatten (ceilDiv_pos hlen hn)

theorem segListOfSeq_eq {cfg : RMTConfig} {seq : List Nat}
    (hs : 0 < cfg.segmentSize) (hm : 0 < cfg.maxNSegments)
    (hne : stripSpecial cfg seq ≠ []) :
    segListOfSeq cfg seq = some ((chunksOf cfg seq).map (padAddSpecialTokens cfg)) := by
  unfold segListOfSeq
  rw [if_neg (Nat.pos_iff_ne_zero.mp (nSeg_pos hs hm hne))]

theorem segAll_length {cfg : RMTConfig} :
    ∀ {batch : List (List Nat)} {sb : List (List (List Nat))},
      segAll cfg batch = some sb → sb.length = batch.length := by
  intro batch
  induction batch with
  | nil => intro sb h; simp [segAll] at h; simp [← h]
  | cons s rest ih =>
    intro sb h
    cases hs : segListOfSeq cfg s with
    | none => simp [segAll, hs] at h
    | some a =>
      cases hr : segAll cfg rest with
      | none => simp [segAll, hs, hr] at h
      | some b =>
        simp [segAll, hs, hr] at h
        subst h
        simp [ih hr]

theorem segAll_get? {cfg : RMTConfig} :
    ∀ {batch : List (List Nat)} {sb : List (List (List Nat))} {b : Nat} {seq : List Nat},
      segAll cfg batch = some sb → batch.get? b = some seq →
      sb.get? b = segListOfSeq cfg seq := by
  intro batch
  induction batch with
  | nil => intro sb b seq h hb; simp at hb
  | cons s rest ih =>
    intro sb b seq h hb
    cases hs : segListOfSeq cfg s with
    | none => simp [segAll, hs] at h
    | some a =>
      cases hr : segAll cfg rest with
      | none => simp [segAll, hs, hr] at h
      | some sbr =>
        simp [segAll, hs, hr] at h
        subst h
        cases b with
        | zero =>
          simp at hb
          subst hb
          simp [hs]
        | succ b =>
          rw [List.get?_cons_succ] at hb
          rw [List.get?_cons_succ]
          exact ih hr hb

theorem segAll_mem {cfg : RMTConfig} :
    ∀ {batch : List (List Nat)} {sb : List (List (List Nat))} {t : List (List Nat)},
      segAll cfg batch = some sb → t ∈ sb →
      ∃ seq, seq ∈ batch ∧ segListOfSeq cfg seq = some t := by
  intro batch
  induction batch with
  | nil => intro sb t h ht; simp [segAll] at h; subst h; simp at ht
  | cons s rest ih =>
    intro sb t h ht
    cases hs : segListOfSeq cfg s with
    | none => simp [segAll, hs] at h
    | some a =>
      cases hr : segAll cfg rest with
      | none => simp [segAll, hs, hr] at h
      | some sbr =>
        simp [segAll, hs, hr] at h
        subst h
        rcases List.mem_cons.mp ht with h1 | h1
        · exact ⟨s, List.mem_cons_self _ _, by rw [hs, h1]⟩
        · rcases ih hr h1 with ⟨seq, hseq, he⟩
          exact ⟨seq, List.mem_cons_of_mem _ hseq, he⟩

theorem segAll_isSome {cfg : RMTConfig} :
    ∀ {batch : List (List Nat)},
      (∀ s ∈ batch, (segListOfSeq cfg s).isSome) → (segAll cfg batch).isSome := by
  intro batch
  induction batch with
  | nil => intro _; simp [segAll]
  | cons s rest ih =>
    intro h
    have hs := h s (List.mem_cons_self _ _)
    have hr := ih (fun x hx => h x (List.mem_cons_of_mem _ hx))
    cases hhs : segListOfSeq cfg s with
    | none => rw [hhs] at hs; simp at hs
    | some a =>
      cases hhr : segAll cfg rest with
      | none => rw [hhr] at hr; simp at hr
      | some b => simp [segAll, hhs, hhr]

end RMT

/-! ## Helper lemmas: right alignment -/

namespace RMT

theorem rightAlign_length {α : Type} (m : Nat) (sb : List (List α)) :
    (rightAlign m sb).length = m := by
  simp [rightAlign]

theorem rightAlignDirect_length {α : Type} (m : Nat) (sb : List (List α)) :
    (rightAlignDirect m sb).length = m := by
  simp [rightAlignDirect]

theorem rightAlign_eq_direct {α : Type} {m : Nat} {sb : List (List α)}
    (h : ∀ s ∈ sb, s.length ≤ m) : rightAlign m sb = rightAlignDirect m sb := by
  unfold rightAlign rightAlignDirect
  rw [← List.map_reverse, List.range_eq_range', List.reverse_range', List.map_map,
    ← List.range_eq_range']
  apply List.map_congr_left
  intro i hi
  rw [List.mem_range] at hi
  apply List.map_congr_left
  intro s hs
  have hsl := h s hs
  simp only [Function.comp]
  by_cases hc : m - s.length ≤ i
  · rw [if_pos hc]
    have hlen0 : 0 < s.length := by omega
    have hrev : 0 + m - 1 - i < s.length := by omega
    rw [List.get?_reverse hrev]
    congr 1
    omega
  · rw [if_neg hc]
    apply List.get?_eq_none.mpr
    rw [List.length_reverse]
    omega

theorem slotAt_direct {sb : List (List (List Nat))} {m i b : Nat}
    {segs : List (List Nat)} (hb : sb.get? b = some segs) (hi : i < m) :
    slotAt (rightAlignDirect m sb) i b =
      if m - segs.length ≤ i then segs.get? (i - (m - segs.length)) else none := by
  unfold slotAt rightAlignDirect
  rw [List.get?_map, List.get?_range hi]
  simp only [Option.map_some', Option.some_bind]
  rw [List.get?_map, hb]
  simp only [Option.map_some', Option.some_bind, id_eq]

theorem filterMap_range_get? {α : Type} (l : List α) :
    (List.range l.length).filterMap (fun i => l.get? i) = l := by
  induction l with
  | nil => rfl
  | cons a t ih =>
    rw [List.length_cons, List.range_succ_eq_map]
    rw [List.filterMap_cons]
    simp only [List.get?_cons_zero]
    rw [List.filterMap_map]
    have hcongr : (List.range t.length).filterMap ((fun i => (a :: t).get? i) ∘ (· + 1)) =
        (List.range t.length).filterMap (fun i => t.get? i) := by
      apply List.filterMap_congr
      intro x _
      simp [Function.comp, List.get?_cons_succ]
    rw [hcongr, ih]

theorem filterMap_range_shift {α : Type} {l : List α} {m : Nat} (h : l.length ≤ m) :
    (List.range m).filterMap
      (fun i => if m - l.length ≤ i then l.get? (i - (m - l.length)) else none) = l := by
  obtain ⟨k, rfl⟩ : ∃ k, m = k + l.length := ⟨m - l.length, by omega⟩
  have hk : k + l.length - l.length = k := by omega
  rw [List.range_add, List.filterMap_append]
  have h1 : (List.range k).filterMap
      (fun i => if k + l.length - l.length ≤ i then l.get? (i - (k + l.length - l.length)) else none) = [] := by
    apply List.filterMap_eq_nil.mpr
    intro i hi
    rw [List.mem_range] at hi
    rw [if_neg (by omega)]
  have h2 : ((List.range l.length).map (fun x => k + x)).filterMap
      (fun i => if k + l.length - l.length ≤ i then l.get? (i - (k + l.length - l.length)) else none) = l := by
    rw [List.filterMap_map]
    have hcongr : (List.range l.length).filterMap
        ((fun i => if k + l.length - l.length ≤ i then l.get? (i - (k + l.length - l.length)) else none) ∘ (fun x => k + x)) =
        (List.range l.length).filterMap (fun i => l.get? i) := by
      apply List.filterMap_congr
      intro x _
      simp only [Function.comp]
      rw [hk, if_pos (by omega)]
      congr 1
      omega
    rw [hcongr, filterMap_range_get?]
  rw [h1, h2, List.nil_append]

theorem nonAbsentSegs_direct {sb : List (List (List Nat))} {m b : Nat}
    {segs : List (List Nat)} (hb : sb.get? b = some segs) (hlen : segs.length ≤ m) :
    nonAbsentSegs (rightAlignDirect m sb) b = segs := by
  unfold nonAbsentSegs
  rw [rightAlignDirect_length]
  have hcongr : (List.range m).filterMap (fun i => slotAt (rightAlignDirect m sb) i b) =
      (List.range m).filterMap
        (fun i => if m - segs.length ≤ i then segs.get? (i - (m - segs.length)) else none) := by
    apply List.filterMap_congr
    intro i hi
    rw [List.mem_range] at hi
    exact slotAt_direct hb hi
  rw [hcongr, filterMap_range_shift hlen]

end RMT

/-! ## Helper lemmas: the forward loop -/

namespace RMT

theorem fwdStep_err_true {M : Type} {cfg : RMTConfig} {enc : Enc M} {labels : List Int}
    {total : Nat} {st : FwdState M} {i : Nat} {slot : List (Option (List Nat))}
    (h : st.err = true) : fwdStep cfg enc labels total st i slot = st := by
  simp [fwdStep, h]

theorem fwdStep_skip {M : Type} {cfg : RMTConfig} {enc : Enc M} {labels : List Int}
    {total : Nat} {st : FwdState M} {i : Nat} {slot : List (Option (List Nat))}
    (h : st.err = false) (hm : (slot.map Option.isSome).count true = 0) :
    fwdStep cfg enc labels total st i slot =
      if detachCond cfg total i then { st with detachedAt := st.detachedAt ++ [i] }
      else st := by
  simp only [fwdStep, h, Bool.false_eq_true, if_false, hm, if_true]

theorem fwdStep_mixed {M : Type} {cfg : RMTConfig} {enc : Enc M} {labels : List Int}
    {total : Nat} {st : FwdState M} {i : Nat} {slot : List (Option (List Nat))}
    (h : st.err = false) (hm : (slot.map Option.isSome).count true ≠ 0)
    (hall : ¬ (slot.map Option.isSome).all (fun b => b) = true) :
    fwdStep cfg enc labels total st i slot =
      { (if detachCond cfg total i then { st with detachedAt := st.detachedAt ++ [i] } else st)
          with err := true } := by
  simp only [fwdStep, h, Bool.false_eq_true, if_false, hm, hall]

theorem fwdStep_proc {M : Type} {cfg : RMTConfig} {enc : Enc M} {labels : List Int}
    {total : Nat} {st : FwdState M} {i : Nat} {slot : List (Option (List Nat))}
    (h : st.err = false) (hm : (slot.map Option.isSome).count true ≠ 0)
    (hall : (slot.map Option.isSome).all (fun b => b) = true) :
    fwdStep cfg enc labels total st i slot =
      (fun st1 =>
        (fun out =>
          { st1 with
              memory := maskedAssign st1.memory (slot.map Option.isSome) out.newMems
              losses := st1.losses ++ [out.loss]
              lastOut := some out
              outs := st1.outs ++ [out]
              invoked := st1.invoked ++ [i] })
          (enc i (slot.filterMap id) ((slot.filterMap id).map (getAttentionMask cfg))
            ((slot.filterMap id).map getTokenTypeIds)
            (maskFilter (slot.map Option.isSome) st1.memory)
            (maskFilter (slot.map Option.isSome) labels)))
        (if detachCond cfg total i then { st with detachedAt := st.detachedAt ++ [i] } else st) := by
  simp only [fwdStep, h, Bool.false_eq_true, if_false, hm, hall, if_true]

theorem detachUpd_fields {M : Type} (cfg : RMTConfig) (total i : Nat) (st : FwdState M) :
    ((if detachCond cfg total i then { st with detachedAt := st.detachedAt ++ [i] }
        else st) : FwdState M).losses = st.losses ∧
    ((if detachCond cfg total i then { st with detachedAt := st.detachedAt ++ [i] }
        else st) : FwdState M).outs = st.outs ∧
    ((if detachCond cfg total i then { st with detachedAt := st.detachedAt ++ [i] }
        else st) : FwdState M).lastOut = st.lastOut ∧
    ((if detachCond cfg total i then { st with detachedAt := st.detachedAt ++ [i] }
        else st) : FwdState M).invoked = st.invoked ∧
    ((if detachCond cfg total i then { st with detachedAt := st.detachedAt ++ [i] }
        else st) : FwdState M).memory = st.memory ∧
    ((if detachCond cfg total i then { st with detachedAt := st.detachedAt ++ [i] }
        else st) : FwdState M).err = st.err := by
  by_cases hd : detachCond cfg total i <;> simp [hd]

end RMT

namespace RMT

theorem runSlots_frozen {M : Type} {cfg : RMTConfig} {enc : Enc M} {labels : List Int}
    {total : Nat} {st : FwdState M} {i : Nat} {l : List (List (Option (List Nat)))}
    (h : st.err = true) : runSlots cfg enc labels total st i l = st := by
  induction l generalizing st i with
  | nil => rfl
  | cons slot rest ih =>
    show runSlots cfg enc labels total (fwdStep cfg enc labels total st i slot) (i + 1) rest = st
    rw [fwdStep_err_true h, ih h]

theorem fwdStep_err_false {M : Type} {cfg : RMTConfig} {enc : Enc M} {labels : List Int}
    {total : Nat} {st : FwdState M} {i : Nat} {slot : List (Option (List Nat))}
    (h : (fwdStep cfg enc labels total st i slot).err = false) : st.err = false := by
  cases herr : st.err
  · rfl
  · rw [fwdStep_err_true herr] at h
    rw [herr] at h
    exact h

theorem runSlots_err_false {M : Type} {cfg : RMTConfig} {enc : Enc M} {labels : List Int}
    {total : Nat} {st : FwdState M} {i : Nat} {l : List (List (Option (List Nat)))}
    (h : (runSlots cfg enc labels total st i l).err = false) : st.err = false := by
  cases herr : st.err
  · rfl
  · rw [runSlots_frozen herr] at h
    rw [herr] at h
    exact h

theorem fwdStep_detachedAt {M : Type} {cfg : RMTConfig} {enc : Enc M} {labels : List Int}
    {total : Nat} {st : FwdState M} {i : Nat} {slot : List (Option (List Nat))}
    (h : st.err = false) :
    (fwdStep cfg enc labels total st i slot).detachedAt =
      st.detachedAt ++ (if detachCond cfg total i then [i] else []) := by
  by_cases hm : (slot.map Option.isSome).count true = 0
  · rw [fwdStep_skip h hm]
    by_cases hd : detachCond cfg total i <;> simp [hd]
  · by_cases hall : (slot.map Option.isSome).all (fun b => b) = true
    · rw [fwdStep_proc h hm hall]
      by_cases hd : detachCond cfg total i <;> simp [hd]
    · rw [fwdStep_mixed h hm hall]
      by_cases hd : detachCond cfg total i <;> simp [hd]

theorem mem_idxFrom {a i n : Nat} : a ∈ idxFrom i n ↔ i ≤ a ∧ a < i + n := by
  induction n generalizing i with
  | zero => simp [idxFrom]
  | succ n ih =>
    simp [idxFrom, List.mem_cons, ih]
    omega

theorem idxFrom_eq_range' (i n : Nat) : idxFrom i n = List.range' i n := by
  induction n generalizing i with
  | zero => rfl
  | succ n ih => simp [idxFrom, List.range', ih]

theorem idxFrom_zero (n : Nat) : idxFrom 0 n = List.range n := by
  rw [idxFrom_eq_range', ← List.range_eq_range']

theorem runSlots_detachedAt {M : Type} {cfg : RMTConfig} {enc : Enc M} {labels : List Int}
    {total : Nat} :
    ∀ {l : List (List (Option (List Nat)))} {st : FwdState M} {i : Nat},
      (runSlots cfg enc labels total st i l).err = false →
      (runSlots cfg enc labels total st i l).detachedAt =
        st.detachedAt ++
          (idxFrom i l.length).filter (fun j => decide (detachCond cfg total j)) := by
  intro l
  induction l with
  | nil => intro st i _; simp [runSlots, idxFrom]
  | cons slot rest ih =>
    intro st i h
    have hrun : runSlots cfg enc labels total st i (slot :: rest) =
        runSlots cfg enc labels total (fwdStep cfg enc labels total st i slot) (i + 1) rest := rfl
    rw [hrun] at h ⊢
    have hst : st.err = false := fwdStep_err_false (runSlots_err_false h)
    rw [ih h, fwdStep_detachedAt hst]
    show _ = st.detachedAt ++ List.filter _ (i :: idxFrom (i + 1) rest.length)
    rw [List.filter_cons]
    by_cases hd : detachCond cfg total i <;>
      simp [hd, List.append_assoc]

theorem count_true_zero_of_all_none {slot : List (Option (List Nat))}
    (h : ∀ o ∈ slot, o = none) : ((slot.map Option.isSome).count true) = 0 := by
  apply List.count_eq_zero.mpr
  intro hmem
  rcases List.mem_map.mp hmem with ⟨o, ho, hiso⟩
  rw [h o ho] at hiso
  simp at hiso

theorem fwdStep_invoked {M : Type} {cfg : RMTConfig} {enc : Enc M} {labels : List Int}
    {total : Nat} {st : FwdState M} {i : Nat} {slot : List (Option (List Nat))}
    (h : st.err = false) :
    (fwdStep cfg enc labels total st i slot).invoked = st.invoked ∨
      ((fwdStep cfg enc labels total st i slot).invoked = st.invoked ++ [i] ∧
        (slot.map Option.isSome).count true ≠ 0) := by
  by_cases hm : (slot.map Option.isSome).count true = 0
  · left
    rw [fwdStep_skip h hm]
    exact (detachUpd_fields cfg total i st).2.2.2.1
  · by_cases hall : (slot.map Option.isSome).all (fun b => b) = true
    · right
      refine ⟨?_, hm⟩
      rw [fwdStep_proc h hm hall]
      show ((if detachCond cfg total i then
          { st with detachedAt := st.detachedAt ++ [i] } else st) : FwdState M).invoked ++ [i] =
        st.invoked ++ [i]
      rw [(detachUpd_fields cfg total i st).2.2.2.1]
    · left
      rw [fwdStep_mixed h hm hall]
      exact (detachUpd_fields cfg total i st).2.2.2.1

theorem runSlots_invoked_mem {M : Type} {cfg : RMTConfig} {enc : Enc M} {labels : List Int}
    {total : Nat} :
    ∀ {l : List (List (Option (List Nat)))} {st : FwdState M} {i k : Nat},
      k ∈ (runSlots cfg enc labels total st i l).invoked →
      k ∈ st.invoked ∨
        ∃ p slot', l.get? p = some slot' ∧ k = i + p ∧
          (slot'.map Option.isSome).count true ≠ 0 := by
  intro l
  induction l with
  | nil => intro st i k h; exact Or.inl h
  | cons slot rest ih =>
    intro st i k h
    have hrun : runSlots cfg enc labels total st i (slot :: rest) =
        runSlots cfg enc labels total (fwdStep cfg enc labels total st i slot) (i + 1) rest := rfl
    rw [hrun] at h
    rcases ih h with hk | ⟨p, slot', hp, hkp, hcnt⟩
    · cases herr : st.err
      · rcases fwdStep_invoked herr with h1 | ⟨h1, h2⟩
        · rw [h1] at hk
          exact Or.inl hk
        · rw [h1] at hk
          rcases List.mem_append.mp hk with h3 | h3
          · exact Or.inl h3
          · right
            refine ⟨0, slot, rfl, ?_, ?_⟩
            · have : k = i := List.mem_singleton.mp h3
              omega
            · exact h2
      · rw [fwdStep_err_true herr] at hk
        exact Or.inl hk
    · right
      exact ⟨p + 1, slot', by rw [List.get?_cons_succ]; exact hp, by omega, hcnt⟩

theorem initState_inv {M : Type} (bsz : Nat) (initRow : M) :
    StateInv (initState bsz initRow) :=
  ⟨rfl, rfl, rfl⟩

theorem fwdStep_inv {M : Type} {cfg : RMTConfig} {enc : Enc M} {labels : List Int}
    {total : Nat} {st : FwdState M} {i : Nat} {slot : List (Option (List Nat))}
    (h : StateInv st) : StateInv (fwdStep cfg enc labels total st i slot) := by
  obtain ⟨hl, ho, hi⟩ := h
  cases herr : st.err
  · by_cases hm : (slot.map Option.isSome).count true = 0
    · rw [fwdStep_skip herr hm]
      by_cases hd : detachCond cfg total i
      · rw [if_pos hd]
        exact ⟨hl, ho, hi⟩
      · rw [if_neg hd]
        exact ⟨hl, ho, hi⟩
    · by_cases hall : (slot.map Option.isSome).all (fun b => b) = true
      · rw [fwdStep_proc herr hm hall]
        by_cases hd : detachCond cfg total i
        · rw [if_pos hd]
          exact ⟨by simp [hl], by simp [List.getLast?_concat], by simp [hi]⟩
        · rw [if_neg hd]
          exact ⟨by simp [hl], by simp [List.getLast?_concat], by simp [hi]⟩
      · rw [fwdStep_mixed herr hm hall]
        by_cases hd : detachCond cfg total i
        · rw [if_pos hd]
          exact ⟨hl, ho, hi⟩
        · rw [if_neg hd]
          exact ⟨hl, ho, hi⟩
  · rw [fwdStep_err_true herr]
    exact ⟨hl, ho, hi⟩

theorem runSlots_inv {M : Type} {cfg : RMTConfig} {enc : Enc M} {labels : List Int}
    {total : Nat} :
    ∀ {l : List (List (Option (List Nat)))} {st : FwdState M} {i : Nat},
      StateInv st → StateInv (runSlots cfg enc labels total st i l) := by
  intro l
  induction l with
  | nil => intro st i h; exact h
  | cons slot rest ih =>
    intro st i h
    exact ih (fwdStep_inv h)

theorem forwardLoop_inv {M : Type} (cfg : RMTConfig) (enc : Enc M) (labels : List Int)
    (bsz : Nat) (initRow : M) (slots : List (List (Option (List Nat)))) :
    StateInv (forwardLoop cfg enc labels bsz initRow slots) :=
  runSlots_inv (initState_inv bsz initRow)

end RMT

namespace RMT

theorem nSeg_ne_zero_facts {cfg : RMTConfig} {seq : List Nat} (h : nSeg cfg seq ≠ 0) :
    0 < cfg.segmentSize ∧ 0 < (truncated cfg seq).length := by
  constructor
  · by_contra hc
    push_neg at hc
    have hz : cfg.segmentSize = 0 := by omega
    apply h
    unfold nSeg ceilDiv
    rw [hz]
    exact Nat.div_zero _
  · by_contra hc
    push_neg at hc
    have h0 : (truncated cfg seq).length = 0 := by omega
    apply h
    unfold nSeg ceilDiv
    rw [h0]
    cases hsz : cfg.segmentSize with
    | zero => exact Nat.div_zero _
    | succ s => exact Nat.div_eq_of_lt (by omega)

theorem segListOfSeq_some_inv {cfg : RMTConfig} {seq : List Nat} {segs : List (List Nat)}
    (h : segListOfSeq cfg seq = some segs) :
    segs = (chunksOf cfg seq).map (padAddSpecialTokens cfg) ∧ nSeg cfg seq ≠ 0 := by
  unfold segListOfSeq at h
  by_cases h0 : nSeg cfg seq = 0
  · rw [if_pos h0] at h
    cases h
  · rw [if_neg h0] at h
    injection h with h
    exact ⟨h.symm, h0⟩

theorem segListOfSeq_length_le {cfg : RMTConfig} {seq : List Nat} {segs : List (List Nat)}
    (h : segListOfSeq cfg seq = some segs) : segs.length ≤ cfg.maxNSegments := by
  obtain ⟨heq, h0⟩ := segListOfSeq_some_inv h
  obtain ⟨hs, hlen⟩ := nSeg_ne_zero_facts h0
  rw [heq, List.length_map, chunksOf_length hs hlen]
  exact nSeg_le_max seq hs

theorem padAndSegment_direct {cfg : RMTConfig} {batch : List (List Nat)}
    {sb : List (List (List Nat))} (hsb : segAll cfg batch = some sb) :
    padAndSegment cfg batch = some (rightAlignDirect cfg.maxNSegments sb) := by
  unfold padAndSegment
  rw [hsb]
  show some (rightAlign cfg.maxNSegments sb) = some (rightAlignDirect cfg.maxNSegments sb)
  congr 1
  apply rightAlign_eq_direct
  intro s hs
  obtain ⟨seq, _, he⟩ := segAll_mem hsb hs
  exact segListOfSeq_length_le he

end RMT

/-! ## Claims about segmentation -/

namespace RMT

/-- Claim C1: for every batch whose sequences are all non-empty after
stripping (the code raises on an empty one, see C2) and every sequence in
it, concatenating the content portions (tokens between the first and final
SEP) of that sequence's non-absent slots, in slot order, reconstructs the
stripped sequence truncated to `segment_size * max_n_segments` tokens.
The tokenizer-sanity hypotheses say that `cls`, `sep`, the `F.pad` fill
value `0` and the memory token ids are pairwise distinguishable. -/
theorem claim_c1_roundtrip (cfg : RMTConfig) (batch : List (List Nat)) (b : Nat)
    (seq : List Nat)
    (hs : 0 < cfg.segmentSize) (hm : 0 < cfg.maxNSegments)
    (hcls : cfg.clsTokenId ≠ cfg.sepTokenId)
    (hsepv : cfg.sepTokenId < cfg.vocabSize)
    (hsep0 : cfg.sepTokenId ≠ 0)
    (hb : batch.get? b = some seq)
    (hne : ∀ s ∈ batch, stripSpecial cfg s ≠ []) :
    ∃ slots, padAndSegment cfg batch = some slots ∧
      ((nonAbsentSegs slots b).map (contentPortion cfg.sepTokenId)).flatten =
        (stripSpecial cfg seq).take (cfg.segmentSize * cfg.maxNSegments) := by
  have hallsome : ∀ s ∈ batch, (segListOfSeq cfg s).isSome := by
    intro s hsmem
    rw [segListOfSeq_eq hs hm (hne s hsmem)]
    rfl
  obtain ⟨sb, hsb⟩ := Option.isSome_iff_exists.mp (segAll_isSome hallsome)
  refine ⟨rightAlignDirect cfg.maxNSegments sb, padAndSegment_direct hsb, ?_⟩
  have hneb : stripSpecial cfg seq ≠ [] := hne seq (List.get?_mem hb)
  have hbseq : sb.get? b = some ((chunksOf cfg seq).map (padAddSpecialTokens cfg)) := by
    rw [segAll_get? hsb hb, segListOfSeq_eq hs hm hneb]
  have hlen : 0 < (truncated cfg seq).length := truncated_length_pos hs hm hneb
  have hle : ((chunksOf cfg seq).map (padAddSpecialTokens cfg)).length ≤ cfg.maxNSegments := by
    rw [List.length_map, chunksOf_length hs hlen]
    exact nSeg_le_max seq hs
  rw [nonAbsentSegs_direct hbseq hle]
  have hmapc : ((chunksOf cfg seq).map (padAddSpecialTokens cfg)).map
      (contentPortion cfg.sepTokenId) = chunksOf cfg seq := by
    rw [List.map_map]
    have hpt : ∀ c ∈ chunksOf cfg seq,
        (contentPortion cfg.sepTokenId ∘ padAddSpecialTokens cfg) c = id c := by
      intro c _
      exact contentPortion_pad hcls hsepv hsep0
    rw [List.map_congr_left hpt, List.map_id]
  rw [hmapc]
  exact chunksOf_flatten hs hlen

/-- Claim C1 witness: the round-trip law evaluated on the concrete batch of
sequences A (12 content tokens) and B (3 content tokens). -/
theorem claim_c1_roundtrip_witness :
    ∃ slots, padAndSegment cfg4 [seqA, seqB] = some slots ∧
      ((nonAbsentSegs slots 0).map (contentPortion cfg4.sepTokenId)).flatten =
        (stripSpecial cfg4 seqA).take (cfg4.segmentSize * cfg4.maxNSegments) :=
  claim_c1_roundtrip cfg4 [seqA, seqB] 0 seqA (by decide) (by decide) (by decide)
    (by decide) (by decide) (by decide) (by decide)

/-- Claim C2 counterexample: on a sequence that is empty after stripping
special tokens (here two pad tokens), `pad_and_segment` raises
(`torch.chunk` with zero chunks) instead of producing zero non-absent
slots; a batch containing any such sequence produces nothing at all. -/
theorem claim_c2_counterexample :
    padAndSegment cfg4 [[0, 0]] = none ∧ padAndSegment cfg4 [seqA, []] = none := by
  decide

/-- Claim C2 (amended): for every sequence whose stripped length `L` is
positive, `pad_and_segment` produces exactly
`ceil(min(L, segment_size * max_n_segments) / segment_size)` non-absent
slots for it, out of `max_n_segments` slots in total; for `L = 0` the
source raises instead (see the counterexample). -/
theorem claim_c2_slot_count (cfg : RMTConfig) (batch : List (List Nat)) (b : Nat)
    (seq : List Nat)
    (hs : 0 < cfg.segmentSize) (hm : 0 < cfg.maxNSegments)
    (hb : batch.get? b = some seq)
    (hne : ∀ s ∈ batch, stripSpecial cfg s ≠ []) :
    ∃ slots, padAndSegment cfg batch = some slots ∧
      slots.length = cfg.maxNSegments ∧
      (nonAbsentSegs slots b).length =
        ceilDiv (min (stripSpecial cfg seq).length
          (cfg.segmentSize * cfg.maxNSegments)) cfg.segmentSize := by
  have hallsome : ∀ s ∈ batch, (segListOfSeq cfg s).isSome := by
    intro s hsmem
    rw [segListOfSeq_eq hs hm (hne s hsmem)]
    rfl
  obtain ⟨sb, hsb⟩ := Option.isSome_iff_exists.mp (segAll_isSome hallsome)
  refine ⟨rightAlignDirect cfg.maxNSegments sb, padAndSegment_direct hsb,
    rightAlignDirect_length _ _, ?_⟩
  have hneb : stripSpecial cfg seq ≠ [] := hne seq (List.get?_mem hb)
  have hbseq : sb.get? b = some ((chunksOf cfg seq).map (padAddSpecialTokens cfg)) := by
    rw [segAll_get? hsb hb, segListOfSeq_eq hs hm hneb]
  have hlen : 0 < (truncated cfg seq).length := truncated_length_pos hs hm hneb
  have hle : ((chunksOf cfg seq).map (padAddSpecialTokens cfg)).length ≤ cfg.maxNSegments := by
    rw [List.length_map, chunksOf_length hs hlen]
    exact nSeg_le_max seq hs
  rw [nonAbsentSegs_direct hbseq hle, List.length_map, chunksOf_length hs hlen]
  unfold nSeg
  rw [truncated_length, Nat.min_comm]

/-- Claim C2 witness: sequence B (stripped length 3) in the concrete batch
occupies exactly `ceil(min(3, 15) / 5) = 1` of the 3 slots. -/
theorem claim_c2_slot_count_witness :
    ∃ slots, padAndSegment cfg4 [seqA, seqB] = some slots ∧
      slots.length = cfg4.maxNSegments ∧
      (nonAbsentSegs slots 1).length =
        ceilDiv (min (stripSpecial cfg4 seqB).length
          (cfg4.segmentSize * cfg4.maxNSegments)) cfg4.segmentSize :=
  claim_c2_slot_count cfg4 [seqA, seqB] 1 seqB (by decide) (by decide) (by decide)
    (by decide)

end RMT

namespace RMT

/-- Claim C3 counterexample: with a tokenizer whose `pad_token_id` is 99,
`pad_add_special_tokens` right-pads with the literal token id 0 (the default
fill value of the padding primitive), not with `pad_token_id`, so the claimed
output is wrong whenever `pad_token_id ≠ 0`. -/
theorem claim_c3_counterexample :
    padAddSpecialTokens cfgPad [5] = [101, 1000, 1001, 102, 5, 102, 0, 0, 0, 0] ∧
    padAddSpecialTokens cfgPad [5] ≠
      ([101] ++ [1000, 1001] ++ [102] ++ [5] ++ [102]) ++ List.replicate 4 99 := by
  decide

/-- Claim C3 (amended): for every content chunk of length at most
`segment_size`, `pad_add_special_tokens` returns
`[CLS, mem_ids…, SEP, content, SEP]` right-padded with the literal token id
`0` — which coincides with `pad_token_id` only when `pad_token_id = 0` — up
to exactly `input_size` tokens; consequently every assembled segment has
length exactly `input_size`, and the entries at `memory_position` are the
memory token ids, never `pad_token_id` (memory ids start at `vocab_size`,
above every real token id). -/
theorem claim_c3_assembly (cfg : RMTConfig) (t : List Nat)
    (ht : t.length ≤ cfg.segmentSize) (hs : 0 < cfg.segmentSize)
    (hpad : cfg.padTokenId < cfg.vocabSize) :
    padAddSpecialTokens cfg t =
      (cfg.clsTokenId :: (cfg.memTokenIds ++ cfg.sepTokenId :: (t ++ [cfg.sepTokenId]))) ++
        List.replicate (cfg.inputSize - (t.length + cfg.numMemTokens + 3)) 0 ∧
    (padAddSpecialTokens cfg t).length = cfg.inputSize ∧
    ∀ p ∈ cfg.memoryPosition, (padAddSpecialTokens cfg t).get? p ≠ some cfg.padTokenId := by
  have hsz : cfg.numMemTokens + 3 ≤ cfg.inputSize := by
    unfold RMTConfig.segmentSize at hs
    omega
  have htot : t.length + cfg.numMemTokens + 3 ≤ cfg.inputSize := by
    unfold RMTConfig.segmentSize at ht hs
    omega
  have hlen : (cfg.clsTokenId :: (cfg.memTokenIds ++ cfg.sepTokenId :: (t ++ [cfg.sepTokenId]))).length
      = t.length + cfg.numMemTokens + 3 := by
    simp [RMTConfig.memTokenIds]
    omega
  have part1 : padAddSpecialTokens cfg t =
      (cfg.clsTokenId :: (cfg.memTokenIds ++ cfg.sepTokenId :: (t ++ [cfg.sepTokenId]))) ++
        List.replicate (cfg.inputSize - (t.length + cfg.numMemTokens + 3)) 0 := by
    unfold padAddSpecialTokens
    rcases Nat.lt_or_ge (t.length + cfg.numMemTokens + 3) cfg.inputSize with hlt | hge
    · have hp : (0 : Int) < (cfg.inputSize : Int) -
          ((cfg.clsTokenId :: (cfg.memTokenIds ++ cfg.sepTokenId :: (t ++ [cfg.sepTokenId]))).length : Int) := by
        rw [hlen]
        push_cast
        omega
      rw [if_pos hp]
      congr 1
      rw [hlen]
      congr 1
      omega
    · have heq : cfg.inputSize = t.length + cfg.numMemTokens + 3 := by omega
      have hp : ¬ ((0 : Int) < (cfg.inputSize : Int) -
          ((cfg.clsTokenId :: (cfg.memTokenIds ++ cfg.sepTokenId :: (t ++ [cfg.sepTokenId]))).length : Int)) := by
        rw [hlen]
        push_cast
        omega
      rw [if_neg hp, heq]
      simp
  refine ⟨part1, ?_, ?_⟩
  · rw [part1, List.length_append, hlen, List.length_replicate]
    omega
  · intro p hp
    rcases List.mem_map.mp hp with ⟨k, hk, hpk⟩
    rw [List.mem_range] at hk
    rw [part1]
    have hkin : p < (cfg.clsTokenId :: (cfg.memTokenIds ++ cfg.sepTokenId :: (t ++ [cfg.sepTokenId]))).length := by
      rw [hlen]
      omega
    rw [List.get?_append hkin]
    subst hpk
    rw [show (1 + k) = k + 1 by omega, List.get?_cons_succ]
    have hkmem : k < cfg.memTokenIds.length := by
      simp [RMTConfig.memTokenIds]
      omega
    rw [List.get?_append hkmem]
    have : cfg.memTokenIds.get? k = some (cfg.vocabSize + k) := by
      unfold RMTConfig.memTokenIds
      rw [List.get?_map, List.get?_range hk]
      rfl
    rw [this]
    intro hcontra
    injection hcontra with hcontra
    omega

/-- Claim C3 witness: the amended assembly law evaluated at the pad-99
configuration and the one-token content chunk `[5]`. -/
theorem claim_c3_assembly_witness :
    padAddSpecialTokens cfgPad [5] =
      (cfgPad.clsTokenId :: (cfgPad.memTokenIds ++ cfgPad.sepTokenId :: ([5] ++ [cfgPad.sepTokenId]))) ++
        List.replicate (cfgPad.inputSize - (1 + cfgPad.numMemTokens + 3)) 0 ∧
    (padAddSpecialTokens cfgPad [5]).length = cfgPad.inputSize ∧
    ∀ p ∈ cfgPad.memoryPosition, (padAddSpecialTokens cfgPad [5]).get? p ≠ some cfgPad.padTokenId :=
  claim_c3_assembly cfgPad [5] (by decide) (by decide) (by decide)

/-- Claim C4 counterexample: in the concrete scenario (`segment_size = 5`,
`max_n_segments = 3`, sequence A with 12 content tokens), `torch.chunk`
splits A into chunks of sizes 4, 4, 4 — near-equal chunks of size
`ceil(12 / 3) = 4` — not into maximal chunks of sizes 5, 5, 2 as claimed. -/
theorem claim_c4_counterexample :
    (nonAbsentSegs ((padAndSegment cfg4 [seqA, seqB]).getD []) 0).map
      (fun s => (contentPortion cfg4.sepTokenId s).length) ≠ [5, 5, 2] := by
  decide

/-- Claim C4 (amended): in the concrete scenario `segment_size = 5`,
`max_n_segments = 3`, with sequence A of 12 content tokens and sequence B of
3: A is split into 3 chunks — of sizes 4, 4, 4, since `torch.chunk` makes
near-equal chunks of size `ceil(12/3) = 4`, not 5, 5, 2 — and B into one
chunk of size 3; slots 0 and 1 are absent for B and present for A, and slot
2 is present for both. -/
theorem claim_c4_scenario :
    (padAndSegment cfg4 [seqA, seqB]).isSome ∧
    (nonAbsentSegs ((padAndSegment cfg4 [seqA, seqB]).getD []) 0).map
      (contentPortion cfg4.sepTokenId) = [[1, 2, 3, 4], [5, 6, 7, 8], [9, 10, 11, 12]] ∧
    (nonAbsentSegs ((padAndSegment cfg4 [seqA, seqB]).getD []) 1).map
      (contentPortion cfg4.sepTokenId) = [[1, 2, 3]] ∧
    slotAt ((padAndSegment cfg4 [seqA, seqB]).getD []) 0 1 = none ∧
    slotAt ((padAndSegment cfg4 [seqA, seqB]).getD []) 1 1 = none ∧
    (slotAt ((padAndSegment cfg4 [seqA, seqB]).getD []) 2 1).isSome ∧
    (slotAt ((padAndSegment cfg4 [seqA, seqB]).getD []) 0 0).isSome ∧
    (slotAt ((padAndSegment cfg4 [seqA, seqB]).getD []) 1 0).isSome ∧
    (slotAt ((padAndSegment cfg4 [seqA, seqB]).getD []) 2 0).isSome := by
  decide

/-- Claim C8: the double-reversal right-alignment used inside
`pad_and_segment` coincides with the direct index arithmetic
(`rightAlignDirect`, modelled from the spec: slot `i` is populated for a
sequence with `n_seg` chunks iff `i ≥ max_n_segments - n_seg`, and then
holds chunk `i - (max_n_segments - n_seg)`), both as a standalone equality
on the segmented batch and inside `pad_and_segment` itself. -/
theorem claim_c8_alignment (cfg : RMTConfig) (batch : List (List Nat))
    (sb : List (List (List Nat))) (hsb : segAll cfg batch = some sb) :
    rightAlign cfg.maxNSegments sb = rightAlignDirect cfg.maxNSegments sb ∧
    padAndSegment cfg batch = some (rightAlignDirect cfg.maxNSegments sb) := by
  have hlens : ∀ s ∈ sb, s.length ≤ cfg.maxNSegments := by
    intro s hs
    obtain ⟨seq, _, he⟩ := segAll_mem hsb hs
    exact segListOfSeq_length_le he
  exact ⟨rightAlign_eq_direct hlens, padAndSegment_direct hsb⟩

/-- Claim C8 witness: the equivalence evaluated on the segmented concrete
batch of sequences A and B. -/
theorem claim_c8_alignment_witness :
    rightAlign cfg4.maxNSegments ((segAll cfg4 [seqA, seqB]).getD []) =
      rightAlignDirect cfg4.maxNSegments ((segAll cfg4 [seqA, seqB]).getD []) ∧
    padAndSegment cfg4 [seqA, seqB] =
      some (rightAlignDirect cfg4.maxNSegments ((segAll cfg4 [seqA, seqB]).getD [])) :=
  claim_c8_alignment cfg4 [seqA, seqB] ((segAll cfg4 [seqA, seqB]).getD []) (by decide)

end RMT

/-! ## Claims about the forward loop -/

namespace RMT

theorem finalize_some_inv {M : Type} {cfg : RMTConfig} {st : FwdState M} {out : RMTOut M}
    (h : finalize cfg st = some out) :
    st.err = false ∧ ∃ o, st.lastOut = some o ∧
      out = { final := o
              loss := if cfg.sumLoss then st.losses.sum else o.loss
              lossSegs := st.losses } := by
  unfold finalize at h
  cases herr : st.err
  · rw [herr] at h
    simp only [Bool.false_eq_true, if_false] at h
    cases hlast : st.lastOut with
    | none => rw [hlast] at h; cases h
    | some o =>
      rw [hlast] at h
      injection h with h
      exact ⟨rfl, o, rfl, h.symm⟩
  · rw [herr] at h
    simp at h

/-- Claim C5: in an error-free forward call, the memory is detached exactly
at the slots where `bptt_depth > -1` and the number of remaining slots
exceeds `bptt_depth`; with `bptt_depth = 0` this is every slot (before every
segment step), and with `bptt_depth = -1` no detachment ever happens. -/
theorem claim_c5_detach {M : Type} (cfg : RMTConfig) (enc : Enc M) (labels : List Int)
    (bsz : Nat) (initRow : M) (slots : List (List (Option (List Nat))))
    (hok : (forwardLoop cfg enc labels bsz initRow slots).err = false) :
    (cfg.bpttDepth = 0 →
      (forwardLoop cfg enc labels bsz initRow slots).detachedAt = List.range slots.length) ∧
    (cfg.bpttDepth = -1 →
      (forwardLoop cfg enc labels bsz initRow slots).detachedAt = []) ∧
    (∀ i, i ∈ (forwardLoop cfg enc labels bsz initRow slots).detachedAt ↔
      ((-1 : Int) < cfg.bpttDepth ∧ cfg.bpttDepth < (slots.length : Int) - (i : Int) ∧
        i < slots.length)) := by
  unfold forwardLoop at hok ⊢
  rw [runSlots_detachedAt hok]
  have hinit : (initState (M := M) bsz initRow).detachedAt = [] := rfl
  rw [hinit, List.nil_append]
  refine ⟨?_, ?_, ?_⟩
  · intro h0
    rw [← idxFrom_zero]
    apply List.filter_eq_self.mpr
    intro a ha
    rw [mem_idxFrom] at ha
    rw [decide_eq_true_eq]
    unfold detachCond
    rw [h0]
    exact ⟨by omega, by omega⟩
  · intro hneg
    apply List.filter_eq_nil.mpr
    intro a _
    rw [decide_eq_true_eq]
    unfold detachCond
    rw [hneg]
    intro hcon
    exact absurd hcon.1 (by omega)
  · intro i
    rw [List.mem_filter, mem_idxFrom, decide_eq_true_eq]
    unfold detachCond
    constructor
    · rintro ⟨⟨_, hlt⟩, h1, h2⟩
      exact ⟨h1, h2, by omega⟩
    · rintro ⟨h1, h2, h3⟩
      exact ⟨⟨by omega, by omega⟩, h1, h2⟩

/-- Claim C5 witness: with `bptt_depth = 0` every slot of the concrete
three-slot run is detached, and with `bptt_depth = -1` none is. -/
theorem claim_c5_detach_witness :
    (forwardLoop { cfg4 with bpttDepth := 0 } encEx [0] 1 7
        ((padAndSegment { cfg4 with bpttDepth := 0 } [seqA]).getD [])).detachedAt =
      List.range ((padAndSegment { cfg4 with bpttDepth := 0 } [seqA]).getD []).length ∧
    (forwardLoop cfg4 encEx [0] 1 7 ((padAndSegment cfg4 [seqA]).getD [])).detachedAt = [] :=
  ⟨(claim_c5_detach { cfg4 with bpttDepth := 0 } encEx [0] 1 7 _ (by decide)).1 rfl,
   (claim_c5_detach cfg4 encEx [0] 1 7 _ (by decide)).2.1 rfl⟩

/-- Claim C6: when `sum_loss` is configured, the returned `loss` is the sum
of the per-segment losses over all processed slots — the `loss_i` fields,
one per base-encoder invocation, each being the loss that invocation
returned (the base model's mean over the slot's active batch; `.mean()` of
that zero-dimensional tensor is itself). -/
theorem claim_c6_sum_loss {M : Type} (cfg : RMTConfig) (enc : Enc M) (initRow : M)
    (labels : List Int) (batch : List (List Nat))
    (slots : List (List (Option (List Nat)))) (out : RMTOut M)
    (hsum : cfg.sumLoss = true)
    (hseg : padAndSegment cfg batch = some slots)
    (hout : rmtForward cfg enc initRow labels batch = some out) :
    out.lossSegs =
      (forwardLoop cfg enc labels batch.length initRow slots).outs.map (fun o => o.loss) ∧
    out.loss = out.lossSegs.sum ∧
    out.lossSegs.length =
      (forwardLoop cfg enc labels batch.length initRow slots).invoked.length := by
  unfold rmtForward at hout
  rw [hseg] at hout
  have hout' : finalize cfg (forwardLoop cfg enc labels batch.length initRow slots) =
      some out := hout
  obtain ⟨herr, o, hlast, houteq⟩ := finalize_some_inv hout'
  obtain ⟨hl, ho, hi⟩ := forwardLoop_inv cfg enc labels batch.length initRow slots
  subst houteq
  refine ⟨hl, ?_, ?_⟩
  · show (if cfg.sumLoss then _ else _) = _
    rw [hsum]
    simp
  · show (forwardLoop cfg enc labels batch.length initRow slots).losses.length = _
    rw [hl, List.length_map]
    exact hi.symm

/-- Claim C6 witness: three processed slots with losses 1, 2, 3 yield an
aggregate loss of 6 with per-segment fields `[1, 2, 3]`. -/
theorem claim_c6_sum_loss_witness :
    ∃ out, rmtForward { cfg4 with sumLoss := true } encEx 7 [0] [seqA] = some out ∧
      out.loss = 6 ∧ out.lossSegs = [1, 2, 3] := by
  have hsome : rmtForward { cfg4 with sumLoss := true } encEx 7 [0] [seqA] =
      some ((rmtForward { cfg4 with sumLoss := true } encEx 7 [0] [seqA]).getD
        ⟨⟨[], 0⟩, 0, []⟩) := by decide
  have h := claim_c6_sum_loss { cfg4 with sumLoss := true } encEx 7 [0] [seqA]
    ((padAndSegment { cfg4 with sumLoss := true } [seqA]).getD [])
    ((rmtForward { cfg4 with sumLoss := true } encEx 7 [0] [seqA]).getD ⟨⟨[], 0⟩, 0, []⟩)
    rfl (by decide) hsome
  refine ⟨_, hsome, ?_, ?_⟩
  · rw [h.2.1, h.1]
    decide
  · rw [h.1]
    decide

/-- Claim C7 (code-bug evaluation): on the mixed-length batch of sequences
A (three segments) and B (one segment), slot 0 contains a present segment
for A and an absent one for B; `torch.stack` is applied to the slot list
before the non-empty mask is used, so the forward call raises `TypeError`
instead of updating the active rows and preserving the inactive ones. -/
theorem claim_c7_partial_slot_crash :
    (forwardLoop cfg4 encEx [0, 1] 2 7 ((padAndSegment cfg4 [seqA, seqB]).getD [])).err = true ∧
    rmtForward cfg4 encEx 7 [0, 1] [seqA, seqB] = none := by
  decide

/-- Claim C9: a slot in which no batch element has a segment is skipped
silently: it never appears among the invoked slots, every recorded
`loss_i` corresponds to an invoked slot, and stepping through such a slot
from any non-error state raises no error and leaves the losses, the
invocation log, the memory tensor and the running output untouched. -/
theorem claim_c9_skip {M : Type} (cfg : RMTConfig) (enc : Enc M) (labels : List Int)
    (bsz : Nat) (initRow : M) (slots : List (List (Option (List Nat))))
    (j : Nat) (slotj : List (Option (List Nat)))
    (hj : slots.get? j = some slotj)
    (hnone : ∀ o ∈ slotj, o = none) :
    j ∉ (forwardLoop cfg enc labels bsz initRow slots).invoked ∧
    (forwardLoop cfg enc labels bsz initRow slots).losses.length =
      (forwardLoop cfg enc labels bsz initRow slots).invoked.length ∧
    (∀ st : FwdState M, st.err = false →
      (fwdStep cfg enc labels slots.length st j slotj).err = false ∧
      (fwdStep cfg enc labels slots.length st j slotj).invoked = st.invoked ∧
      (fwdStep cfg enc labels slots.length st j slotj).losses = st.losses ∧
      (fwdStep cfg enc labels slots.length st j slotj).memory = st.memory ∧
      (fwdStep cfg enc labels slots.length st j slotj).lastOut = st.lastOut) := by
  have hcnt : ((slotj.map Option.isSome).count true) = 0 :=
    count_true_zero_of_all_none hnone
  refine ⟨?_, ?_, ?_⟩
  · intro hmem
    unfold forwardLoop at hmem
    rcases runSlots_invoked_mem hmem with h0 | ⟨p, slot', hp, hjp, hc⟩
    · simp [initState] at h0
    · have hpj : p = j := by omega
      subst hpj
      rw [hj] at hp
      injection hp with hp
      subst hp
      exact hc hcnt
  · obtain ⟨hl, _, hi⟩ := forwardLoop_inv cfg enc labels bsz initRow slots
    rw [hl, List.length_map]
    exact hi.symm
  · intro st hst
    rw [fwdStep_skip hst hcnt]
    by_cases hd : detachCond cfg slots.length j
    · rw [if_pos hd]
      exact ⟨hst, rfl, rfl, rfl, rfl⟩
    · rw [if_neg hd]
      exact ⟨hst, rfl, rfl, rfl, rfl⟩

/-- Claim C9 witness: on the one-sequence batch with sequence B, slot 0 is
absent for every batch element; it is never invoked and stepping through it
from the initial state raises no error and changes nothing but the detach
log. -/
theorem claim_c9_skip_witness :
    0 ∉ (forwardLoop cfg4 encEx [0] 1 7 ((padAndSegment cfg4 [seqB]).getD [])).invoked ∧
    (fwdStep cfg4 encEx [0] ((padAndSegment cfg4 [seqB]).getD []).length
      (initState 1 7) 0 [none]).err = false := by
  have h := claim_c9_skip cfg4 encEx [0] 1 7 ((padAndSegment cfg4 [seqB]).getD [])
    0 [none] (by decide) (by decide)
  exact ⟨h.1, (h.2.2 (initState 1 7) rfl).1⟩

/-- Claim C10: when `sum_loss` is off and at least one slot was processed,
the returned `loss` is exactly the loss the base encoder produced on the
last processed segment (the last recorded encoder output), and the
per-segment losses are available through the `loss_i` fields, one per
encoder invocation in order. -/
theorem claim_c10_last_loss {M : Type} (cfg : RMTConfig) (enc : Enc M) (initRow : M)
    (labels : List Int) (batch : List (List Nat))
    (slots : List (List (Option (List Nat)))) (out : RMTOut M)
    (hsum : cfg.sumLoss = false)
    (hseg : padAndSegment cfg batch = some slots)
    (hout : rmtForward cfg enc initRow labels batch = some out) :
    ∃ o, (forwardLoop cfg enc labels batch.length initRow slots).outs.getLast? = some o ∧
      out.loss = o.loss ∧
      out.lossSegs =
        (forwardLoop cfg enc labels batch.length initRow slots).outs.map (fun e => e.loss) := by
  unfold rmtForward at hout
  rw [hseg] at hout
  have hout' : finalize cfg (forwardLoop cfg enc labels batch.length initRow slots) =
      some out := hout
  obtain ⟨herr, o, hlast, houteq⟩ := finalize_some_inv hout'
  obtain ⟨hl, ho, hi⟩ := forwardLoop_inv cfg enc labels batch.length initRow slots
  subst houteq
  refine ⟨o, ?_, ?_, hl⟩
  · rw [← ho]
    exact hlast
  · show (if cfg.sumLoss then _ else _) = _
    rw [hsum]
    simp

/-- Claim C10 witness: in the concrete three-slot run with `sum_loss` off,
the returned loss is the last slot's loss. -/
theorem claim_c10_last_loss_witness :
    ∃ o, (forwardLoop cfg4 encEx [0] 1 7
        ((padAndSegment cfg4 [seqA]).getD [])).outs.getLast? = some o ∧
      ((rmtForward cfg4 encEx 7 [0] [seqA]).getD ⟨⟨[], 0⟩, 0, []⟩).loss = o.loss ∧
      ((rmtForward cfg4 encEx 7 [0] [seqA]).getD ⟨⟨[], 0⟩, 0, []⟩).lossSegs =
        (forwardLoop cfg4 encEx [0] 1 7
          ((padAndSegment cfg4 [seqA]).getD [])).outs.map (fun e => e.loss) :=
  claim_c10_last_loss cfg4 encEx 7 [0] [seqA] _ _ rfl (by decide) (by decide)

end RMT
